import Mathlib

/-!
Verification of the chunk-spanning value-iteration core of the
go-bullseye/bullseye DataFrame library.

The Go source is shallowly embedded below.  The typed value iterators
(`Int64ValueIterator`, `BooleanValueIterator`, ... in
`iterator/valueiterator.gen.go` and `iterator/booleanvalueiterator.go`)
all share one traversal algorithm over a chunked column; that algorithm
is embedded once, generically in the element type `α`:

  - a `Chunk` is one immutable typed buffer plus its validity bitmap
    (`values[i]` are the raw buffer contents; `valid.getD i true`
    mirrors Arrow's convention that a missing bitmap means all-valid);
  - the chunk cursor (`ChunkIterator`, whose .go file is not part of
    the sources examined here) is modelled from the spec: it hands out
    the column's chunks strictly in sequence and signals exhaustion by
    returning false;
  - `ValueIterator.Next` is the chunk-skip loop of the Go code:
    `index++`, then while the index runs past the current chunk pull
    the next chunk (zero-length chunks are skipped because the loop
    re-checks `index >= ref.Len()` after every pull).
-/

/-- One Arrow chunk: a contiguous typed value buffer together with its
validity bitmap.  `values` holds the raw buffer contents at every
position, also at null positions. -/
structure Chunk (α : Type) where
  values : List α
  valid : List Bool
deriving DecidableEq, Repr

namespace Chunk

/-- `Len()` of the chunk. -/
def len (c : Chunk α) : Nat := c.values.length

/-- `Value(i)`: raw buffer read at position `i`. -/
def value [Inhabited α] (c : Chunk α) (i : Nat) : α := c.values.getD i default

/-- `IsNull(i)`: the validity bit at `i` is unset.  A missing bitmap
entry counts as valid, matching Arrow's null-bitmap convention. -/
def isNull (c : Chunk α) (i : Nat) : Bool := !(c.valid.getD i true)

/-- The logical content of a chunk: the ordered list of
`(raw value, is-null)` pairs, one per position. -/
def pairs [Inhabited α] (c : Chunk α) : List (α × Bool) :=
  (List.range c.len).map (fun i => (c.value i, c.isNull i))

end Chunk

/-- The logical content of a whole column given as its chunk sequence. -/
def colPairs [Inhabited α] (cs : List (Chunk α)) : List (α × Bool) :=
  (cs.map Chunk.pairs).flatten

/-- State of a typed value iterator, as in the Go struct:
current chunk reference `ref`, current `index`, `done` flag, and the
chunk cursor (modelled from the spec as the list of chunks not yet
handed out). -/
structure ValueIterator (α : Type) where
  chunks : List (Chunk α)
  ref : Option (Chunk α)
  index : Nat
  done : Bool
deriving DecidableEq, Repr

/-- `NewXxxValueIterator(col)`: fresh iterator over a column's chunks;
`index` starts at 0, no chunk held, not done. -/
def mkValueIterator (cs : List (Chunk α)) : ValueIterator α :=
  { chunks := cs, ref := none, index := 0, done := false }

/-- The Go loop `for ref == nil ‖ index >= ref.Len() { if !nextChunk()
{ done = true; return false } }` after `nextChunk` has been entered:
pull chunks in sequence, set `ref`/`index := 0`, and keep pulling while
the fresh chunk is empty.  Exhaustion of the cursor sets `done`. -/
def advanceChunks : List (Chunk α) → ValueIterator α → Bool × ValueIterator α
  | [], s => (false, { s with chunks := [], done := true })
  | c :: rest, s =>
      if c.len = 0 then
        advanceChunks rest { s with chunks := rest, ref := some c, index := 0 }
      else
        (true, { s with chunks := rest, ref := some c, index := 0 })

namespace ValueIterator

/-- `Next()` of every typed value iterator (`Int64ValueIterator.Next`,
`BooleanValueIterator.Next`, ...): early-return false when `done`,
increment the index, and run the chunk-skip loop when the index runs
past the current chunk (or no chunk is held yet). -/
def Next (s : ValueIterator α) : Bool × ValueIterator α :=
  if s.done then (false, s)
  else
    let s1 : ValueIterator α := { s with index := s.index + 1 }
    match s1.ref with
    | none => advanceChunks s1.chunks s1
    | some c => if s1.index < c.len then (true, s1) else advanceChunks s1.chunks s1

/-- State after `Next()`, discarding the boolean. -/
def nextState (s : ValueIterator α) : ValueIterator α := (s.Next).2

/-- `k` successive `Next()` calls. -/
def nexts : Nat → ValueIterator α → ValueIterator α
  | 0, s => s
  | k + 1, s => nexts k s.nextState

/-- `Value()`: the raw value and the null flag at the current position.
(The Go code reads `values[index]` and `ref.IsNull(index)`; a missing
chunk reference is undefined behaviour, modelled by a default.) -/
def Value [Inhabited α] (s : ValueIterator α) : α × Bool :=
  match s.ref with
  | some c => (c.value s.index, c.isNull s.index)
  | none => (default, true)

/-- `ValueInterface()`: null-checked projection — `nil` when the
validity bit is unset, the typed value otherwise. -/
def ValueInterface [Inhabited α] (s : ValueIterator α) : Option α :=
  match s.ref with
  | some c => if c.isNull s.index then none else some (c.value s.index)
  | none => none

end ValueIterator

/-- Drive the iterator for at most `n` steps of the consumer loop
`for it.Next() { v, null := it.Value(); ... }`, collecting the
`(value, is-null)` pairs observed. -/
def iterN [Inhabited α] : Nat → ValueIterator α → List (α × Bool)
  | 0, _ => []
  | n + 1, s =>
      let r := s.Next
      if r.1 then r.2.Value :: iterN n r.2 else []

/-- The logical values the iterator has not yet emitted: the rest of
the current chunk after the current position, then the chunks still in
the cursor. -/
def remPairs [Inhabited α] (s : ValueIterator α) : List (α × Bool) :=
  if s.done then []
  else
    (match s.ref with
     | some c => c.pairs.drop (s.index + 1)
     | none => []) ++ colPairs s.chunks

section ValueIteratorLemmas

variable {α : Type} [Inhabited α]

theorem Chunk.pairs_length (c : Chunk α) : c.pairs.length = c.len := by
  simp [Chunk.pairs]

theorem colPairs_nil : colPairs ([] : List (Chunk α)) = [] := rfl

theorem colPairs_cons (c : Chunk α) (cs : List (Chunk α)) :
    colPairs (c :: cs) = c.pairs ++ colPairs cs := by
  simp [colPairs]

/-- `advanceChunks` specification, success case: it lands at position 0
of the first non-empty chunk, consuming the skipped chunks; the
column's remaining logical content is preserved. -/
theorem advanceChunks_true (cs : List (Chunk α)) (s s' : ValueIterator α)
    (h : advanceChunks cs s = (true, s')) :
    s'.done = s.done ∧ s'.index = 0 ∧
      ∃ c, s'.ref = some c ∧ 0 < c.len ∧
        colPairs cs = c.pairs ++ colPairs s'.chunks := by
  induction cs generalizing s with
  | nil => simp [advanceChunks] at h
  | cons c rest ih =>
      by_cases hc : c.len = 0
      · have h' : advanceChunks rest
            { s with chunks := rest, ref := some c, index := 0 } = (true, s') := by
          simpa [advanceChunks, hc] using h
        obtain ⟨hd, hi, c', hr, hl, hp⟩ := ih _ h'
        refine ⟨hd, hi, c', hr, hl, ?_⟩
        have hcp : c.pairs = [] := by
          simp [Chunk.pairs, hc]
        simp [colPairs_cons, hcp, hp]
      · have h' : s' = { s with chunks := rest, ref := some c, index := 0 } := by
          have := h
          simp [advanceChunks, hc] at this
          exact this.symm
        subst h'
        refine ⟨rfl, rfl, c, rfl, Nat.pos_of_ne_zero hc, ?_⟩
        simp [colPairs_cons]

/-- `advanceChunks` specification, exhaustion case: every remaining
chunk was empty and the iterator is marked done. -/
theorem advanceChunks_false (cs : List (Chunk α)) (s s' : ValueIterator α)
    (h : advanceChunks cs s = (false, s')) :
    colPairs cs = [] ∧ s'.done = true := by
  induction cs generalizing s with
  | nil =>
      simp [advanceChunks] at h
      refine ⟨rfl, ?_⟩
      rw [← h]
  | cons c rest ih =>
      by_cases hc : c.len = 0
      · have h' : advanceChunks rest
            { s with chunks := rest, ref := some c, index := 0 } = (false, s') := by
          simpa [advanceChunks, hc] using h
        obtain ⟨hp, hd⟩ := ih _ h'
        have hcp : c.pairs = [] := by simp [Chunk.pairs, hc]
        exact ⟨by simp [colPairs_cons, hcp, hp], hd⟩
      · simp [advanceChunks, hc] at h

theorem Chunk.pairs_drop (c : Chunk α) (i : Nat) (h : i < c.len) :
    c.pairs.drop i = (c.value i, c.isNull i) :: c.pairs.drop (i + 1) := by
  have hl : i < c.pairs.length := by rw [Chunk.pairs_length]; exact h
  rw [List.drop_eq_getElem_cons hl]
  congr 1
  simp [Chunk.pairs]

omit [Inhabited α] in
theorem Next_done (s : ValueIterator α) (h : s.done = true) : s.Next = (false, s) := by
  simp [ValueIterator.Next, h]

/-- `Next()` returning true: the iterator sits on a valid position of a
held chunk and the previously-remaining logical content was exactly the
new current pair followed by what now remains. -/
theorem Next_true (s s' : ValueIterator α) (h : s.Next = (true, s')) :
    s.done = false ∧ s'.done = false ∧
      ∃ c, s'.ref = some c ∧ s'.index < c.len ∧
        remPairs s = (c.value s'.index, c.isNull s'.index) :: remPairs s' := by
  by_cases hd : s.done
  · simp [ValueIterator.Next, hd] at h
  · have hdf : s.done = false := by simpa using hd
    rcases href : s.ref with _ | c
    · have h' : advanceChunks s.chunks
          ({ s with index := s.index + 1 } : ValueIterator α) = (true, s') := by
        simpa [ValueIterator.Next, hdf, href] using h
      obtain ⟨hd', hi', c, hr, hlen, hp⟩ := advanceChunks_true _ _ _ h'
      have hd'' : s'.done = false := by simpa [hdf] using hd'
      refine ⟨hdf, hd'', c, hr, by omega, ?_⟩
      have hrem : remPairs s = colPairs s.chunks := by
        simp [remPairs, hdf, href]
      have hrem' : remPairs s' = c.pairs.drop 1 ++ colPairs s'.chunks := by
        simp [remPairs, hd'', hr, hi']
      have hd0 : c.pairs = (c.value 0, c.isNull 0) :: c.pairs.drop 1 := by
        have := Chunk.pairs_drop c 0 hlen
        simpa using this
      rw [hrem, hp, hrem', hi', hd0]
      simp
    · by_cases hidx : s.index + 1 < c.len
      · have h' : s' =
            ({ chunks := s.chunks, ref := some c, index := s.index + 1, done := false } : ValueIterator α) := by
          have := h
          simp [ValueIterator.Next, hdf, href, hidx] at this
          exact this.symm
        subst h'
        refine ⟨hdf, rfl, c, rfl, hidx, ?_⟩
        have hrem : remPairs s = c.pairs.drop (s.index + 1) ++ colPairs s.chunks := by
          simp [remPairs, hdf, href]
        have hrem' : remPairs
            ({ chunks := s.chunks, ref := some c, index := s.index + 1, done := false } : ValueIterator α)
            = c.pairs.drop (s.index + 2) ++ colPairs s.chunks := by
          simp [remPairs]
        rw [hrem, hrem', Chunk.pairs_drop c (s.index + 1) hidx]
        simp
      · have h' : advanceChunks s.chunks
            ({ s with index := s.index + 1 } : ValueIterator α) = (true, s') := by
          simpa [ValueIterator.Next, hdf, href, hidx] using h
        obtain ⟨hd', hi', c', hr, hlen, hp⟩ := advanceChunks_true _ _ _ h'
        have hd'' : s'.done = false := by simpa [hdf] using hd'
        refine ⟨hdf, hd'', c', hr, by omega, ?_⟩
        have hdropnil : c.pairs.drop (s.index + 1) = [] := by
          apply List.drop_eq_nil_of_le
          rw [Chunk.pairs_length]
          omega
        have hrem : remPairs s = colPairs s.chunks := by
          simp [remPairs, hdf, href, hdropnil]
        have hrem' : remPairs s' = c'.pairs.drop 1 ++ colPairs s'.chunks := by
          simp [remPairs, hd'', hr, hi']
        have hd0 : c'.pairs = (c'.value 0, c'.isNull 0) :: c'.pairs.drop 1 := by
          have := Chunk.pairs_drop c' 0 hlen
          simpa using this
        rw [hrem, hp, hrem', hi', hd0]
        simp

/-- `Next()` returning false: nothing logically remained, the iterator
is now permanently done, and calling `Next()` again returns false with
the state unchanged. -/
theorem Next_false (s s' : ValueIterator α) (h : s.Next = (false, s')) :
    remPairs s = [] ∧ s'.done = true ∧ s'.Next = (false, s') := by
  by_cases hd : s.done
  · have hs : s = s' := by simpa [ValueIterator.Next, hd] using h
    subst hs
    exact ⟨by simp [remPairs, hd], hd, Next_done s hd⟩
  · have hdf : s.done = false := by simpa using hd
    rcases href : s.ref with _ | c
    · have h' : advanceChunks s.chunks
          ({ s with index := s.index + 1 } : ValueIterator α) = (false, s') := by
        simpa [ValueIterator.Next, hdf, href] using h
      obtain ⟨hp, hd'⟩ := advanceChunks_false _ _ _ h'
      exact ⟨by simp [remPairs, hdf, href, hp], hd', Next_done s' hd'⟩
    · by_cases hidx : s.index + 1 < c.len
      · simp [ValueIterator.Next, hdf, href, hidx] at h
      · have h' : advanceChunks s.chunks
            ({ s with index := s.index + 1 } : ValueIterator α) = (false, s') := by
          simpa [ValueIterator.Next, hdf, href, hidx] using h
        obtain ⟨hp, hd'⟩ := advanceChunks_false _ _ _ h'
        have hdropnil : c.pairs.drop (s.index + 1) = [] := by
          apply List.drop_eq_nil_of_le
          rw [Chunk.pairs_length]
          omega
        exact ⟨by simp [remPairs, hdf, href, hdropnil, hp], hd', Next_done s' hd'⟩

/-- The consumer loop observes exactly the iterator's remaining logical
content, truncated to the number of loop iterations allowed. -/
theorem iterN_eq_take (n : Nat) (s : ValueIterator α) :
    iterN n s = (remPairs s).take n := by
  induction n generalizing s with
  | zero => simp [iterN]
  | succ n ih =>
      rcases hnx : s.Next with ⟨b, s'⟩
      cases b
      · obtain ⟨hrem, _, _⟩ := Next_false s s' hnx
        simp [iterN, hnx, hrem]
      · obtain ⟨_, _, c, hr, hi, hrem⟩ := Next_true s s' hnx
        have hval : s'.Value = (c.value s'.index, c.isNull s'.index) := by
          simp [ValueIterator.Value, hr]
        simp [iterN, hnx, hrem, ih, hval]

theorem remPairs_nextState (s : ValueIterator α) :
    remPairs s.nextState = (remPairs s).tail := by
  rcases hnx : s.Next with ⟨b, s'⟩
  cases b
  · obtain ⟨hrem, hd', _⟩ := Next_false s s' hnx
    have hst : s.nextState = s' := by simp [ValueIterator.nextState, hnx]
    rw [hst, hrem]
    simp [remPairs, hd']
  · obtain ⟨_, _, c, _, _, hrem⟩ := Next_true s s' hnx
    simp [ValueIterator.nextState, hnx, hrem]

theorem remPairs_nexts (k : Nat) (s : ValueIterator α) :
    remPairs (ValueIterator.nexts k s) = (remPairs s).drop k := by
  induction k generalizing s with
  | zero => simp [ValueIterator.nexts]
  | succ k ih =>
      rw [ValueIterator.nexts, ih, remPairs_nextState, ← List.drop_one, List.drop_drop]
      congr 1
      omega

theorem Next_fst_true_iff (s : ValueIterator α) :
    (s.Next).1 = true ↔ remPairs s ≠ [] := by
  rcases hnx : s.Next with ⟨b, s'⟩
  cases b
  · obtain ⟨hrem, _, _⟩ := Next_false s s' hnx
    simp [hrem]
  · obtain ⟨_, _, c, _, _, hrem⟩ := Next_true s s' hnx
    simp [hrem]

theorem remPairs_mk (cs : List (Chunk α)) :
    remPairs (mkValueIterator cs) = colPairs cs := by
  simp [remPairs, mkValueIterator]

omit [Inhabited α] in
theorem nexts_nextState (k : Nat) (s : ValueIterator α) :
    ValueIterator.nexts k s.nextState = (ValueIterator.nexts k s).nextState := by
  induction k generalizing s with
  | zero => simp [ValueIterator.nexts]
  | succ k ih => rw [ValueIterator.nexts, ih, ValueIterator.nexts]

/-- Splitting one logical buffer into two chunks splits its pair list. -/
theorem Chunk.pairs_append (v₁ v₂ : List α) (b₁ b₂ : List Bool)
    (hb : b₁.length = v₁.length) :
    (Chunk.mk (v₁ ++ v₂) (b₁ ++ b₂)).pairs
      = (Chunk.mk v₁ b₁).pairs ++ (Chunk.mk v₂ b₂).pairs := by
  apply List.ext_getElem
  · simp [Chunk.pairs_length, Chunk.len]
  · intro i h1 h2
    have hlen1 : (Chunk.mk (v₁ ++ v₂) (b₁ ++ b₂)).pairs.length
        = v₁.length + v₂.length := by
      simp [Chunk.pairs_length, Chunk.len]
    have hi : i < v₁.length + v₂.length := by rw [hlen1] at h1; exact h1
    have hpl : ∀ (c : Chunk α) (j : Nat) (hj : j < c.pairs.length),
        c.pairs[j] = (c.value j, c.isNull j) := by
      intro c j hj
      simp [Chunk.pairs]
    rw [hpl _ i h1]
    by_cases hcase : i < v₁.length
    · have hidx : i < (Chunk.mk v₁ b₁).pairs.length := by
        simpa [Chunk.pairs_length, Chunk.len] using hcase
      rw [List.getElem_append_left hidx, hpl _ i hidx]
      have hv : (v₁ ++ v₂).getD i default = v₁.getD i default := by
        rw [List.getD_eq_getElem?_getD, List.getD_eq_getElem?_getD,
          List.getElem?_append_left hcase]
      have hbb : (b₁ ++ b₂).getD i true = b₁.getD i true := by
        rw [List.getD_eq_getElem?_getD, List.getD_eq_getElem?_getD,
          List.getElem?_append_left (by omega : i < b₁.length)]
      simp only [Chunk.value, Chunk.isNull]
      rw [hv, hbb]
    · have hge : v₁.length ≤ i := Nat.le_of_not_lt hcase
      have hlen₁ : (Chunk.mk v₁ b₁).pairs.length = v₁.length := by
        simp [Chunk.pairs_length, Chunk.len]
      have hge' : (Chunk.mk v₁ b₁).pairs.length ≤ i := by rw [hlen₁]; exact hge
      have hidx2 : i - (Chunk.mk v₁ b₁).pairs.length < (Chunk.mk v₂ b₂).pairs.length := by
        simp only [Chunk.pairs_length, Chunk.len] at h2 ⊢
        simp only [List.length_append, Chunk.pairs_length, Chunk.len] at h2
        omega
      rw [List.getElem_append_right hge', hpl _ _ hidx2]
      simp only [Chunk.value, Chunk.isNull, hlen₁]
      have hv : (v₁ ++ v₂).getD i default = v₂.getD (i - v₁.length) default := by
        rw [List.getD_eq_getElem?_getD, List.getD_eq_getElem?_getD,
          List.getElem?_append_right hge]
      have hbb : (b₁ ++ b₂).getD i true = b₂.getD (i - v₁.length) true := by
        rw [List.getD_eq_getElem?_getD, List.getD_eq_getElem?_getD,
          List.getElem?_append_right (by omega : b₁.length ≤ i), hb]
      rw [hv, hbb]

/-- Concatenating the buffers of a chunk sequence (each with an aligned
validity bitmap) concatenates the logical contents. -/
theorem colPairs_eq_concat (cs : List (Chunk α))
    (hlen : ∀ ch ∈ cs, ch.valid.length = ch.values.length) :
    colPairs cs
      = (Chunk.mk ((cs.map Chunk.values).flatten) ((cs.map Chunk.valid).flatten)).pairs := by
  induction cs with
  | nil => simp [colPairs, Chunk.pairs, Chunk.len]
  | cons c rest ih =>
      have hc := hlen c (by simp)
      have hrest := fun ch hch => hlen ch (List.mem_cons_of_mem _ hch)
      rw [colPairs_cons, ih hrest]
      simp only [List.map_cons, List.flatten_cons]
      rw [Chunk.pairs_append _ _ _ _ hc]

end ValueIteratorLemmas

/-- C1: for every column whose logical values are fixed, iterating it
with the typed value iterator's `Next()`/`Value()` protocol when the
column is split into K chunks of sizes `[n1..nK]` (zero-length chunks
allowed anywhere) yields the identical ordered sequence of
`(value, is-null)` pairs as iterating the same logical values stored in
a single chunk of size `Σni` — for any number of consumer-loop steps. -/
theorem c1_chunk_boundary_transparency {α : Type} [Inhabited α]
    (cs : List (Chunk α)) (c : Chunk α)
    (hlen : ∀ ch ∈ cs, ch.valid.length = ch.values.length)
    (hv : c.values = (cs.map Chunk.values).flatten)
    (hb : c.valid = (cs.map Chunk.valid).flatten) :
    ∀ n, iterN n (mkValueIterator cs) = iterN n (mkValueIterator [c]) := by
  intro n
  have hc : c = Chunk.mk ((cs.map Chunk.values).flatten) ((cs.map Chunk.valid).flatten) := by
    cases c
    simp_all
  rw [iterN_eq_take, iterN_eq_take, remPairs_mk, remPairs_mk,
    colPairs_eq_concat cs hlen, ← hc]
  simp [colPairs]

/-- Concrete three-chunk split (with a zero-length chunk in the middle)
used as the C1 witness. -/
def c1ChunksW : List (Chunk Int) := [⟨[1], [true]⟩, ⟨[], []⟩, ⟨[2, 3], [false, true]⟩]

/-- The same logical values in one chunk, for the C1 witness. -/
def c1SingleW : Chunk Int := ⟨[1, 2, 3], [true, false, true]⟩

theorem c1_chunk_boundary_transparency_witness :
    iterN 5 (mkValueIterator c1ChunksW) = iterN 5 (mkValueIterator [c1SingleW]) :=
  c1_chunk_boundary_transparency c1ChunksW c1SingleW (by decide) (by decide) (by decide) 5

/-- C8: once a typed value iterator's `Next()` has returned false,
every subsequent call — after any number of further calls — also
returns false. -/
theorem c8_exhaustion_idempotent {α : Type} [Inhabited α] (s : ValueIterator α)
    (h : (s.Next).1 = false) :
    ∀ k, ((ValueIterator.nexts k (s.Next).2).Next).1 = false := by
  intro k
  rcases hnx : s.Next with ⟨b, s'⟩
  rw [hnx] at h
  simp at h
  subst h
  obtain ⟨_, _, hself⟩ := Next_false s s' hnx
  have hfix : ∀ m, ValueIterator.nexts m s' = s' := by
    intro m
    induction m with
    | zero => rfl
    | succ m ih =>
        have hst : s'.nextState = s' := by
          rw [ValueIterator.nextState, hself]
        rw [ValueIterator.nexts, hst, ih]
  show ((ValueIterator.nexts k s').Next).1 = false
  rw [hfix k, hself]

theorem c8_exhaustion_idempotent_witness :
    ((ValueIterator.nexts 3 ((mkValueIterator ([] : List (Chunk Int))).Next).2).Next).1
      = false :=
  c8_exhaustion_idempotent (mkValueIterator ([] : List (Chunk Int))) (by decide) 3

/-- C9: at any position of a typed value iterator whose chunk validity
bit is unset, `ValueInterface()` returns `nil` regardless of the raw
bits stored in the value buffer at that position; where the bit is set
it returns the typed value stored there. -/
theorem c9_null_projection {α : Type} [Inhabited α] (s : ValueIterator α) (c : Chunk α)
    (h : s.ref = some c) :
    (c.isNull s.index = true → s.ValueInterface = none) ∧
    (c.isNull s.index = false → s.ValueInterface = some (c.value s.index)) := by
  constructor <;> intro hn <;> simp [ValueIterator.ValueInterface, h, hn]

/-- Iterator state positioned on a null entry whose raw buffer bits are
the (arbitrary) value 42, for the C9 witness. -/
def c9IterW : ValueIterator Int :=
  { chunks := [], ref := some ⟨[7, 42], [true, false]⟩, index := 1, done := false }

theorem c9_null_projection_witness : c9IterW.ValueInterface = none :=
  (c9_null_projection c9IterW ⟨[7, 42], [true, false]⟩ rfl).1 (by decide)

/-!
Step iterator (`iterator/stepiterator.go`).  The Go `stepIterator`
synchronizes one generic `ValueIterator` per column; its `Next()` loops
over the column iterators, calling `Next()` on each one unconditionally
and accumulating `next = exists || next`, and stores a freshly built
`StepValue`.  Columns are embedded with element type `V` and a data
type tag `D` (the `arrow.DataType` is only carried around, never
inspected, by the step iterator).
-/

/-- `StepValue`: the row-aligned snapshot built by each `Next()`. -/
structure StepValue (V D : Type) where
  Values : List (Option V)
  Exists : List Bool
  Dtypes : List D
deriving DecidableEq, Repr

/-- A column: its chunk sequence plus its data type tag. -/
structure Column (V D : Type) where
  chunks : List (Chunk V)
  dtype : D
deriving DecidableEq, Repr

/-- `stepIterator` state: the column iterators, the data type tags, and
the `StepValue` pointer (`nil` before the first `Next()`). -/
structure stepIterator (V D : Type) where
  iterators : List (ValueIterator V)
  dtypes : List D
  stepValue : Option (StepValue V D)
deriving DecidableEq, Repr

/-- `NewStepIteratorForColumns`: one fresh value iterator per column,
data types collected in the same order, no `StepValue` yet. -/
def NewStepIteratorForColumns (cols : List (Column V D)) : stepIterator V D :=
  { iterators := cols.map (fun c => mkValueIterator c.chunks)
    dtypes := cols.map Column.dtype
    stepValue := none }

/-- The body of `stepIterator.Next`'s loop over the column iterators,
threading the `next = exists || next` accumulator: returns the final
accumulator, the `Exists` flags, the `Values` entries and the advanced
iterators, in column order. -/
def stepColumns [Inhabited V] :
    List (ValueIterator V) → Bool → Bool × List Bool × List (Option V) × List (ValueIterator V)
  | [], acc => (acc, [], [], [])
  | it :: rest, acc =>
      let r := it.Next
      let value : Option V := if r.1 then r.2.ValueInterface else none
      let rec_ := stepColumns rest (r.1 || acc)
      (rec_.1, r.1 :: rec_.2.1, value :: rec_.2.2.1, r.2 :: rec_.2.2.2)

/-- `stepIterator.Next`: build a fresh `StepValue` by advancing every
column iterator once, store it, and return the OR of the existence
flags. -/
def stepIterator.Next [Inhabited V] (s : stepIterator V D) : Bool × stepIterator V D :=
  let r := stepColumns s.iterators false
  (r.1,
   { iterators := r.2.2.2
     dtypes := s.dtypes
     stepValue := some { Values := r.2.2.1, Exists := r.2.1, Dtypes := s.dtypes } })

/-- `Values()`: the stored `StepValue` pointer. -/
def stepIterator.Values (s : stepIterator V D) : Option (StepValue V D) := s.stepValue

/-- State after `k` calls to `stepIterator.Next`. -/
def stepNexts [Inhabited V] : Nat → stepIterator V D → stepIterator V D
  | 0, s => s
  | k + 1, s => stepNexts k (s.Next).2

/-- The booleans returned by `n` successive `stepIterator.Next` calls. -/
def stepResults [Inhabited V] : Nat → stepIterator V D → List Bool
  | 0, _ => []
  | n + 1, s => (s.Next).1 :: stepResults n (s.Next).2

section StepIteratorLemmas

variable {V D : Type} [Inhabited V]

/-- Loop characterization: the accumulator ORs every column's `Next()`
result, and the collected lists are the per-column results in column
order, each column's iterator advanced exactly once. -/
theorem stepColumns_spec (its : List (ValueIterator V)) (acc : Bool) :
    stepColumns its acc
      = (its.any (fun it => (it.Next).1) || acc,
         its.map (fun it => (it.Next).1),
         its.map (fun it => if (it.Next).1 then (it.Next).2.ValueInterface else none),
         its.map (fun it => (it.Next).2)) := by
  induction its generalizing acc with
  | nil => simp [stepColumns]
  | cons it rest ih =>
      simp only [stepColumns, ih, List.any_cons, List.map_cons]
      refine congrArg (fun b => (b, _)) ?_
      cases (it.Next).1 <;> cases acc <;> simp

end StepIteratorLemmas

/-- C2: every `stepIterator.Next` call advances every column iterator
exactly once (exhausted ones included), stores a fresh `StepValue`
whose entry `i` holds column `i`'s existence flag and
`ValueInterface()` value in construction order, and returns the OR of
all existence flags. -/
theorem c2_step_next_spec {V D : Type} [Inhabited V] (s : stepIterator V D) :
    (s.Next).1 = s.iterators.any (fun it => (it.Next).1)
    ∧ (s.Next).2.iterators = s.iterators.map (fun it => (it.Next).2)
    ∧ (s.Next).2.stepValue
        = some { Values := s.iterators.map
                   (fun it => if (it.Next).1 then (it.Next).2.ValueInterface else none)
                 Exists := s.iterators.map (fun it => (it.Next).1)
                 Dtypes := s.dtypes } := by
  refine ⟨?_, ?_, ?_⟩ <;> simp [stepIterator.Next, stepColumns_spec]

section StepIteratorRuns

variable {V D : Type} [Inhabited V]

theorem getD_map_lt {β γ : Type} (f : β → γ) (l : List β) (j : Nat)
    (hj : j < l.length) (d : γ) :
    (l.map f).getD j d = f (l.get ⟨j, hj⟩) := by
  rw [List.getD_eq_getElem?_getD, List.getElem?_map, List.getElem?_eq_getElem hj]
  rfl

theorem stepNext_dtypes (s : stepIterator V D) : (s.Next).2.dtypes = s.dtypes := rfl

/-- After `k` step calls, each column iterator is exactly its own state
after `k` solo `Next()` calls, in construction order. -/
theorem stepNexts_iterators (k : Nat) (s : stepIterator V D) :
    (stepNexts k s).iterators = s.iterators.map (ValueIterator.nexts k)
    ∧ (stepNexts k s).dtypes = s.dtypes := by
  induction k generalizing s with
  | zero => simp [stepNexts, ValueIterator.nexts]
  | succ k ih =>
      rw [stepNexts]
      obtain ⟨h1, h2⟩ := ih ((s.Next).2)
      have hit : (s.Next).2.iterators = s.iterators.map (fun it => (it.Next).2) :=
        (c2_step_next_spec s).2.1
      constructor
      · rw [h1, hit, List.map_map]
        rfl
      · rw [h2, stepNext_dtypes]

theorem stepNexts_succ_last (k : Nat) (s : stepIterator V D) :
    stepNexts (k + 1) s = ((stepNexts k s).Next).2 := by
  induction k generalizing s with
  | zero => rfl
  | succ k ih =>
      rw [stepNexts, ih]
      rfl

theorem stepResults_eq (n : Nat) (s : stepIterator V D) :
    stepResults n s = (List.range n).map (fun k => ((stepNexts k s).Next).1) := by
  induction n generalizing s with
  | zero => simp [stepResults]
  | succ n ih =>
      rw [stepResults, ih, List.range_succ_eq_map, List.map_cons, List.map_map]
      rfl

/-- A column iterator's `k`-indexed call result: true exactly while
logical rows remain. -/
theorem nexts_call_true_iff (cs : List (Chunk V)) (k : Nat) :
    ((ValueIterator.nexts k (mkValueIterator cs)).Next).1 = true
      ↔ k < (colPairs cs).length := by
  rw [Next_fst_true_iff, remPairs_nexts, remPairs_mk]
  constructor
  · intro h
    by_contra hk
    exact h (List.drop_eq_nil_iff.mpr (by omega))
  · intro h hnil
    rw [List.drop_eq_nil_iff] at hnil
    omega

end StepIteratorRuns

/-- C3: a step iterator over a nonempty collection of columns of equal
logical row count `R` returns true from exactly the first `R` `Next()`
calls and false from the `(R+1)`th; and for every row `i < R` and
column `j`, the `i`-th `StepValue`'s entry for column `j` exists and
equals the value a solo value iterator for that column reports at its
own `i`-th step. -/
theorem c3_row_alignment {V D : Type} [Inhabited V]
    (cols : List (Column V D)) (R : Nat) (hne : cols ≠ [])
    (hR : ∀ col ∈ cols, (colPairs col.chunks).length = R) :
    stepResults (R + 1) (NewStepIteratorForColumns cols)
      = List.replicate R true ++ [false]
    ∧ ∀ i, i < R → ∀ j, (hj : j < cols.length) →
        ∃ sv, (stepNexts (i + 1) (NewStepIteratorForColumns cols)).Values = some sv
          ∧ sv.Exists.getD j false = true
          ∧ sv.Values.getD j none
              = (ValueIterator.nexts (i + 1)
                  (mkValueIterator (cols.get ⟨j, hj⟩).chunks)).ValueInterface := by
  have hcall : ∀ k, ((stepNexts k (NewStepIteratorForColumns cols)).Next).1
      = decide (k < R) := by
    intro k
    have h1 := (c2_step_next_spec (stepNexts k (NewStepIteratorForColumns cols))).1
    have h2 := (stepNexts_iterators k (NewStepIteratorForColumns cols)).1
    rw [h1, h2]
    simp only [NewStepIteratorForColumns, List.map_map]
    by_cases hk : k < R
    · have hd : decide (k < R) = true := by simp [hk]
      rw [hd, List.any_eq_true]
      rcases cols with _ | ⟨c0, rest⟩
      · exact absurd rfl hne
      · refine ⟨ValueIterator.nexts k (mkValueIterator c0.chunks),
          List.mem_map_of_mem _ (by simp), ?_⟩
        rw [nexts_call_true_iff, hR c0 (by simp)]
        exact hk
    · have hd : decide (k < R) = false := by simp [hk]
      rw [hd, List.any_eq_false]
      intro it hit
      rw [List.mem_map] at hit
      obtain ⟨col, hcol, hit⟩ := hit
      subst hit
      have hfalse : ¬ ((ValueIterator.nexts k
          (mkValueIterator col.chunks)).Next).1 = true := by
        rw [nexts_call_true_iff, hR col hcol]
        exact hk
      simpa using hfalse
  constructor
  · rw [stepResults_eq]
    apply List.ext_getElem
    · simp
    · intro i h1 h2
      simp only [List.getElem_map, List.getElem_range, hcall]
      by_cases hi : i < R
      · rw [List.getElem_append_left (by simpa using hi)]
        simp [hi]
      · have hiR : i = R := by
          simp only [List.length_map, List.length_range] at h1
          omega
        subst hiR
        rw [List.getElem_append_right (by simp)]
        simp [hi]
  · intro i hi j hj
    have hlast := stepNexts_succ_last i (NewStepIteratorForColumns cols)
    have hsv := (c2_step_next_spec (stepNexts i (NewStepIteratorForColumns cols))).2.2
    have hits : (stepNexts i (NewStepIteratorForColumns cols)).iterators
        = cols.map (fun c => ValueIterator.nexts i (mkValueIterator c.chunks)) := by
      rw [(stepNexts_iterators i (NewStepIteratorForColumns cols)).1]
      show (cols.map (fun c => mkValueIterator c.chunks)).map (ValueIterator.nexts i) = _
      rw [List.map_map]
      rfl
    have htrue : ((ValueIterator.nexts i
        (mkValueIterator (cols.get ⟨j, hj⟩).chunks)).Next).1 = true := by
      rw [nexts_call_true_iff, hR _ (List.get_mem cols j hj)]
      exact hi
    rw [hlast]
    simp only [stepIterator.Values]
    rw [hsv, hits]
    refine ⟨_, rfl, ?_, ?_⟩
    · dsimp only
      rw [List.map_map, getD_map_lt _ cols j hj]
      exact htrue
    · dsimp only
      rw [List.map_map, getD_map_lt _ cols j hj]
      show (if ((ValueIterator.nexts i
            (mkValueIterator (cols.get ⟨j, hj⟩).chunks)).Next).1 = true
          then ((ValueIterator.nexts i
            (mkValueIterator (cols.get ⟨j, hj⟩).chunks)).Next).2.ValueInterface
          else none) = _
      rw [htrue, if_pos rfl]
      show ((ValueIterator.nexts i
        (mkValueIterator (cols.get ⟨j, hj⟩).chunks)).nextState).ValueInterface = _
      rw [← nexts_nextState]
      rfl

/-- Two equal-row-count columns across uneven chunking, used as the C3
witness (column 0 in one chunk, column 1 in two). -/
def c3ColsW : List (Column Int Nat) :=
  [⟨[⟨[1, 2], [true, true]⟩], 0⟩, ⟨[⟨[10], [true]⟩, ⟨[20], [false]⟩], 1⟩]

theorem c3_row_alignment_witness :
    stepResults (2 + 1) (NewStepIteratorForColumns c3ColsW)
      = List.replicate 2 true ++ [false]
    ∧ ∀ i, i < 2 → ∀ j, (hj : j < c3ColsW.length) →
        ∃ sv, (stepNexts (i + 1) (NewStepIteratorForColumns c3ColsW)).Values = some sv
          ∧ sv.Exists.getD j false = true
          ∧ sv.Values.getD j none
              = (ValueIterator.nexts (i + 1)
                  (mkValueIterator (c3ColsW.get ⟨j, hj⟩).chunks)).ValueInterface :=
  c3_row_alignment c3ColsW 2 (by decide) (by decide)

/-- C10: `Values()` returns `nil` before the first `Next()` call; after
any call to `Next()` — including one that returned false — it returns
the `StepValue` built by that call, whose `Values`, `Exists` and
`Dtypes` slices all have length equal to the number of columns, and in
which every column whose iterator was exhausted at that step has an
existence flag of false and a `nil` value. -/
theorem c10_values_snapshot {V D : Type} [Inhabited V] (cols : List (Column V D)) :
    (NewStepIteratorForColumns cols).Values = none
    ∧ ∀ k, ∃ sv,
        (stepNexts (k + 1) (NewStepIteratorForColumns cols)).Values = some sv
        ∧ sv.Values.length = cols.length
        ∧ sv.Exists.length = cols.length
        ∧ sv.Dtypes.length = cols.length
        ∧ ∀ j, (hj : j < cols.length) → sv.Exists.getD j true = false →
            sv.Values.getD j (some default) = none := by
  constructor
  · rfl
  · intro k
    have hlast := stepNexts_succ_last k (NewStepIteratorForColumns cols)
    have hsv := (c2_step_next_spec (stepNexts k (NewStepIteratorForColumns cols))).2.2
    have hits : (stepNexts k (NewStepIteratorForColumns cols)).iterators
        = cols.map (fun c => ValueIterator.nexts k (mkValueIterator c.chunks)) := by
      rw [(stepNexts_iterators k (NewStepIteratorForColumns cols)).1]
      show (cols.map (fun c => mkValueIterator c.chunks)).map (ValueIterator.nexts k) = _
      rw [List.map_map]
      rfl
    have hdts : (stepNexts k (NewStepIteratorForColumns cols)).dtypes
        = cols.map Column.dtype :=
      (stepNexts_iterators k (NewStepIteratorForColumns cols)).2
    rw [hlast]
    simp only [stepIterator.Values]
    rw [hsv, hits, hdts]
    refine ⟨_, rfl, ?_, ?_, ?_, ?_⟩
    · dsimp only
      rw [List.map_map, List.length_map]
    · dsimp only
      rw [List.map_map, List.length_map]
    · dsimp only
      rw [List.length_map]
    · intro j hj hex
      dsimp only at hex ⊢
      rw [List.map_map, getD_map_lt _ cols j hj] at hex
      rw [List.map_map, getD_map_lt _ cols j hj]
      have hex' : ((ValueIterator.nexts k
          (mkValueIterator (cols.get ⟨j, hj⟩).chunks)).Next).1 = false := hex
      show (if ((ValueIterator.nexts k
            (mkValueIterator (cols.get ⟨j, hj⟩).chunks)).Next).1 = true
          then ((ValueIterator.nexts k
            (mkValueIterator (cols.get ⟨j, hj⟩).chunks)).Next).2.ValueInterface
          else none) = none
      rw [hex']
      simp

/-- Ragged columns (row counts 1 and 2) for the C10 witness: after the
second call column 0 is exhausted. -/
def c10ColsW : List (Column Int Nat) :=
  [⟨[⟨[5], [true]⟩], 0⟩, ⟨[⟨[7, 8], [true, true]⟩], 1⟩]

theorem c10_values_snapshot_witness :
    (NewStepIteratorForColumns c10ColsW).Values = none
    ∧ ∀ k, ∃ sv,
        (stepNexts (k + 1) (NewStepIteratorForColumns c10ColsW)).Values = some sv
        ∧ sv.Values.length = c10ColsW.length
        ∧ sv.Exists.length = c10ColsW.length
        ∧ sv.Dtypes.length = c10ColsW.length
        ∧ ∀ j, (hj : j < c10ColsW.length) → sv.Exists.getD j true = false →
            sv.Values.getD j (some default) = none :=
  c10_values_snapshot c10ColsW

/-!
Struct iterator (`iterator/structvalueiterator.go`).  One outer chunk
cursor for the struct's own validity; on every chunk transition one
child value iterator per field is rebuilt from the struct chunk's field
sub-arrays (`NewInterfaceValueIterator` wraps a field array as a
single-chunk column).  `Next()` loops
`for ref == nil or advanceFieldIterators() { if !nextChunk() { done } }`
where `advanceFieldIterators` increments the outer index and calls
`Next()` on every field iterator, returning true iff all of them
reported exhaustion.
-/

/-- One struct-typed chunk: the struct's validity bitmap and one field
sub-array per field. -/
structure StructChunk (V : Type) where
  valid : List Bool
  fields : List (Chunk V)
deriving DecidableEq, Repr

/-- `StructValueIterator` state: outer chunk cursor (modelled from the
spec as the chunks not yet handed out), current chunk reference, outer
`index` (starts at -1), `done` flag, and the per-field child
iterators. -/
structure StructValueIterator (V : Type) where
  chunks : List (StructChunk V)
  ref : Option (StructChunk V)
  index : Int
  done : Bool
  fieldIterators : List (ValueIterator V)
deriving DecidableEq, Repr

/-- `NewStructValueIterator`: index -1, no chunk, no field iterators. -/
def mkStructValueIterator (cs : List (StructChunk V)) : StructValueIterator V :=
  { chunks := cs, ref := none, index := -1, done := false, fieldIterators := [] }

/-- `advanceFieldIterators`: `index++`, call `Next()` on every field
iterator (unconditionally — no short-circuit), and report whether all
of them returned false. -/
def advanceFieldIterators (s : StructValueIterator V) : Bool × StructValueIterator V :=
  let stepped := s.fieldIterators.map ValueIterator.Next
  (stepped.all (fun p => !p.1),
   { s with index := s.index + 1, fieldIterators := stepped.map Prod.snd })

/-- `nextChunk` of the struct iterator: install the chunk, reset the
outer index to -1 and rebuild one child value iterator per field from
the chunk's field sub-arrays (each wrapped as a single-chunk column). -/
def structLoadChunk (ch : StructChunk V) (rest : List (StructChunk V))
    (s : StructValueIterator V) : StructValueIterator V :=
  { s with chunks := rest, ref := some ch, index := -1, fieldIterators := ch.fields.map (fun f => mkValueIterator [f]) }

/-- The chunk-transition loop of `StructValueIterator.Next`: pull the
next chunk, advance its fresh field iterators once, and keep pulling
while they all report exhaustion at once; mark done when the cursor is
exhausted. -/
def structSeek : List (StructChunk V) → StructValueIterator V → Bool × StructValueIterator V
  | [], s => (false, { s with chunks := [], done := true })
  | ch :: rest, s =>
      let s1 := structLoadChunk ch rest s
      let r := advanceFieldIterators s1
      if r.1 then structSeek rest r.2 else (true, r.2)

/-- `StructValueIterator.Next`: early-return false when done; with no
chunk held enter the transition loop directly, otherwise advance all
field iterators in lockstep and enter the transition loop only when
every one of them reported exhaustion simultaneously. -/
def StructValueIterator.Next (s : StructValueIterator V) : Bool × StructValueIterator V :=
  if s.done then (false, s)
  else
    match s.ref with
    | none => structSeek s.chunks s
    | some _ =>
        let r := advanceFieldIterators s
        if r.1 then structSeek r.2.chunks r.2 else (true, r.2)

section StructIteratorLemmas

variable {V : Type}

theorem advanceFieldIterators_snd (s : StructValueIterator V) :
    (advanceFieldIterators s).2
      = { s with index := s.index + 1, fieldIterators := s.fieldIterators.map (fun it => (it.Next).2) } := by
  simp [advanceFieldIterators, List.map_map]

theorem advanceFieldIterators_fst (s : StructValueIterator V) :
    (advanceFieldIterators s).1 = true
      ↔ ∀ it ∈ s.fieldIterators, (it.Next).1 = false := by
  simp only [advanceFieldIterators, List.all_eq_true, List.mem_map]
  constructor
  · intro h it hit
    have := h ((it.Next).1, (it.Next).2) ⟨it, hit, rfl⟩
    simpa using this
  · intro h p hp
    obtain ⟨it, hit, hp⟩ := hp
    subst hp
    simpa using h it hit

end StructIteratorLemmas

/-- C4: a `StructValueIterator.Next` call on a live iterator holding a
chunk (i) returns false only if every field child iterator's own
`Next()` reported exhaustion in that same lockstep advance, and (ii) if
at least one field iterator still has data, returns true having
advanced the outer index and every field child iterator exactly once,
in lockstep. -/
theorem c4_struct_lockstep {V : Type} (s : StructValueIterator V) (c : StructChunk V)
    (hdone : s.done = false) (href : s.ref = some c) :
    ((s.Next).1 = false → ∀ it ∈ s.fieldIterators, (it.Next).1 = false)
    ∧ ((∃ it ∈ s.fieldIterators, (it.Next).1 = true) →
        s.Next = (true, { s with index := s.index + 1, fieldIterators := s.fieldIterators.map (fun it => (it.Next).2) })) := by
  constructor
  · intro hfalse it hit
    by_cases hall : (advanceFieldIterators s).1 = true
    · exact (advanceFieldIterators_fst s).mp hall it hit
    · exfalso
      have : s.Next = (true, (advanceFieldIterators s).2) := by
        simp only [StructValueIterator.Next, hdone, href]
        simp [Bool.not_eq_true] at hall
        simp [hall]
      rw [this] at hfalse
      simp at hfalse
  · intro ⟨it, hit, htrue⟩
    have hall : (advanceFieldIterators s).1 = false := by
      rw [← Bool.not_eq_true, advanceFieldIterators_fst]
      intro hforall
      rw [hforall it hit] at htrue
      exact Bool.false_ne_true htrue
    simp [StructValueIterator.Next, hdone, href, hall, advanceFieldIterators_snd]

/-- One-field struct chunk data for the C4 witness. -/
def c4FieldChunkW : Chunk Int := ⟨[5, 6], [true, true]⟩

/-- Live struct iterator holding a chunk, its single field iterator not
yet exhausted, for the C4 witness. -/
def c4StructW : StructValueIterator Int :=
  { chunks := [], ref := some ⟨[true, true], [c4FieldChunkW]⟩, index := -1, done := false, fieldIterators := [mkValueIterator [c4FieldChunkW]] }

theorem c4_struct_lockstep_witness :
    c4StructW.Next = (true, { c4StructW with index := c4StructW.index + 1, fieldIterators := c4StructW.fieldIterators.map (fun it => (it.Next).2) }) :=
  (c4_struct_lockstep c4StructW ⟨[true, true], [c4FieldChunkW]⟩ rfl rfl).2
    ⟨mkValueIterator [c4FieldChunkW], by decide, by decide⟩

/-!
List iterator (`ListValueIterator` in the iterator package) and the
list branch of the recursive materializer
(`dataframe/json.go, rowElementToJSON`).  The list chunk keeps the raw
Arrow buffers: the chunk's data `offset`, the raw validity bitmap
(consulted at `offset + i`, as Arrow's `IsNull` does internally), the
raw `offsets` buffer (indexed at `index + Offset()`, exactly as the Go
code computes `j := vr.index + vr.ref.Offset()`), and the full child
values array returned by `ListValues()`.
-/

/-- One list-typed chunk, raw buffers as in the Arrow Go `array.List`. -/
structure ListChunk (V : Type) where
  offset : Nat
  valid : List Bool
  offsets : List Nat
  elems : Chunk V
deriving DecidableEq, Repr

/-- `IsNull(i)` on the list chunk (offset-adjusted bitmap read). -/
def ListChunk.isNull (l : ListChunk V) (i : Nat) : Bool :=
  !(l.valid.getD (l.offset + i) true)

/-- `array.NewSlice(arr, beg, end)`: the logical elements `[beg, end)`
of the child array, validity kept aligned. -/
def chunkSlice (c : Chunk V) (b e : Nat) : Chunk V :=
  ⟨(c.values.take e).drop b, (c.valid.take e).drop b⟩

/-- `ListValueIterator.ValueInterface`: `nil` for a null entry (no
child iterator is built); otherwise a freshly constructed generic value
iterator over the single-chunk column `NewSlice(ListValues(),
offsets[j], offsets[j+1])` with `j = index + Offset()`. -/
def listValueInterface (ref : ListChunk V) (index : Nat) : Option (ValueIterator V) :=
  if ref.isNull index then none
  else
    let j := index + ref.offset
    let beg := ref.offsets.getD j 0
    let e := ref.offsets.getD (j + 1) 0
    some (mkValueIterator [chunkSlice ref.elems beg e])

/-- The element-collection loop of `rowElementToJSON`'s LIST case
(`for valueIterator.Next() { list = append(list, ...) }`), fuel-bounded;
each scalar element materializes to its `ValueInterface()` value. -/
def collectVIN [Inhabited V] : Nat → ValueIterator V → List (Option V)
  | 0, _ => []
  | n + 1, s =>
      let r := s.Next
      if r.1 then r.2.ValueInterface :: collectVIN n r.2 else []

/-- Fuel provably sufficient to exhaust the iterator. -/
def iterBound (s : ValueIterator V) : Nat :=
  (s.chunks.map Chunk.len).sum + (match s.ref with | some c => c.len | none => 0) + 1

/-- The full run of the element-collection loop. -/
def collectVI [Inhabited V] (s : ValueIterator V) : List (Option V) :=
  collectVIN (iterBound s) s

/-- `rowElementToJSON` on a list entry: `nil` in, `nil` out (a null
list stays `nil`); otherwise iterate the child iterator to exhaustion,
collecting the materialized elements (an always-non-nil sequence). -/
def materializeListEntry [Inhabited V] (ref : ListChunk V) (index : Nat) :
    Option (List (Option V)) :=
  match listValueInterface ref index with
  | none => none
  | some it => some (collectVI it)

section ListIteratorLemmas

variable {V : Type} [Inhabited V]

theorem ValueInterface_eq_proj (s : ValueIterator V) (c : Chunk V) (h : s.ref = some c) :
    s.ValueInterface = (if (s.Value).2 then none else some (s.Value).1) := by
  simp [ValueIterator.ValueInterface, ValueIterator.Value, h]

theorem collectVIN_eq_map (n : Nat) (s : ValueIterator V) :
    collectVIN n s = (iterN n s).map (fun p => if p.2 then none else some p.1) := by
  induction n generalizing s with
  | zero => simp [collectVIN, iterN]
  | succ n ih =>
      rcases hnx : s.Next with ⟨b, s'⟩
      cases b
      · simp [collectVIN, iterN, hnx]
      · obtain ⟨_, _, c, hr, _, _⟩ := Next_true s s' hnx
        simp [collectVIN, iterN, hnx, ih, ValueInterface_eq_proj s' c hr]

theorem collectVI_mk_single (arr : Chunk V) :
    collectVI (mkValueIterator [arr])
      = arr.pairs.map (fun p => if p.2 then none else some p.1) := by
  rw [collectVI, collectVIN_eq_map, iterN_eq_take, remPairs_mk]
  have h1 : colPairs [arr] = arr.pairs := by simp [colPairs]
  rw [h1, List.take_of_length_le]
  rw [Chunk.pairs_length]
  simp [iterBound, mkValueIterator]

/-- Slicing the child array restricts its logical content to exactly
the sliced index range. -/
theorem chunkSlice_pairs (c : Chunk V) (b e : Nat)
    (hval : c.valid.length = c.values.length) (he : e ≤ c.values.length) :
    (chunkSlice c b e).pairs = (c.pairs.take e).drop b := by
  apply List.ext_getElem
  · simp [Chunk.pairs_length, chunkSlice, Chunk.len, hval]
  · intro i h1 h2
    have hpl : ∀ (ch : Chunk V) (j : Nat) (hj : j < ch.pairs.length),
        ch.pairs[j] = (ch.value j, ch.isNull j) := by
      intro ch j hj
      simp [Chunk.pairs]
    have hslen : (chunkSlice c b e).pairs.length = e - b := by
      simp [Chunk.pairs_length, chunkSlice, Chunk.len]
      omega
    have hib : i < e - b := by rw [hslen] at h1; exact h1
    have hbe : b + i < e := by omega
    have hbi : b + i < c.values.length := by omega
    have hpairs_len : c.pairs.length = c.values.length := Chunk.pairs_length c
    have htake_i : i < (c.pairs.take e).length := by
      simp [hpairs_len]
      omega
    rw [hpl _ i h1, List.getElem_drop, List.getElem_take]
    rw [hpl _ (b + i) (by omega)]
    have hv : (chunkSlice c b e).value i = c.value (b + i) := by
      have hvi : i < ((c.values.take e).drop b).length := by
        simp
        omega
      simp only [chunkSlice, Chunk.value]
      rw [List.getD_eq_getElem _ _ hvi, List.getElem_drop, List.getElem_take,
        List.getD_eq_getElem _ _ hbi]
    have hn : (chunkSlice c b e).isNull i = c.isNull (b + i) := by
      have hni : i < ((c.valid.take e).drop b).length := by
        simp [hval]
        omega
      simp only [chunkSlice, Chunk.isNull]
      rw [List.getD_eq_getElem _ _ hni, List.getElem_drop, List.getElem_take,
        List.getD_eq_getElem _ _ (by omega : b + i < c.valid.length)]
    rw [hv, hn]

end ListIteratorLemmas

/-- C5: at a null list position, `ValueInterface` yields `nil` without
constructing a child iterator and the materialized value is `nil`; at a
valid position it yields a fresh generic value iterator scoped to the
half-open offset range `[offsets[j], offsets[j+1])` (`j` the
offset-adjusted index) of the underlying values array, so the
materialized value is exactly the ordered sequence of those elements —
in particular an empty-but-valid list materializes to the empty
sequence, not `nil`. -/
theorem c5_list_scoping {V : Type} [Inhabited V] (l : ListChunk V) (i : Nat)
    (hval : l.elems.valid.length = l.elems.values.length)
    (_hoff : i + l.offset + 1 < l.offsets.length)
    (hend : l.offsets.getD (i + l.offset + 1) 0 ≤ l.elems.values.length) :
    (l.isNull i = true →
      listValueInterface l i = none ∧ materializeListEntry l i = none)
    ∧ (l.isNull i = false →
      listValueInterface l i
        = some (mkValueIterator [chunkSlice l.elems
            (l.offsets.getD (i + l.offset) 0) (l.offsets.getD (i + l.offset + 1) 0)])
      ∧ materializeListEntry l i
        = some (((l.elems.pairs.take (l.offsets.getD (i + l.offset + 1) 0)).drop
            (l.offsets.getD (i + l.offset) 0)).map
              (fun p => if p.2 then none else some p.1))
      ∧ (l.offsets.getD (i + l.offset) 0 = l.offsets.getD (i + l.offset + 1) 0 →
          materializeListEntry l i = some [])) := by
  constructor
  · intro hn
    constructor
    · simp [listValueInterface, hn]
    · simp [materializeListEntry, listValueInterface, hn]
  · intro hn
    have hvi : listValueInterface l i
        = some (mkValueIterator [chunkSlice l.elems
            (l.offsets.getD (i + l.offset) 0) (l.offsets.getD (i + l.offset + 1) 0)]) := by
      simp [listValueInterface, hn]
    refine ⟨hvi, ?_, ?_⟩
    · unfold materializeListEntry
      rw [hvi]
      dsimp only
      rw [collectVI_mk_single, chunkSlice_pairs _ _ _ hval hend]
    · intro hempty
      unfold materializeListEntry
      rw [hvi]
      dsimp only
      rw [collectVI_mk_single, chunkSlice_pairs _ _ _ hval hend, hempty]
      simp

/-- List chunk for the C5 witness: entry 0 is `["x-elements" 10, 20)`,
entry 1 is null, entry 2 is an empty-but-valid list. -/
def c5ListW : ListChunk Int :=
  { offset := 0, valid := [true, false, true], offsets := [0, 2, 2, 2], elems := ⟨[10, 20], [true, false]⟩ }

theorem c5_list_scoping_witness :
    listValueInterface c5ListW 0
      = some (mkValueIterator [chunkSlice c5ListW.elems
          (c5ListW.offsets.getD (0 + c5ListW.offset) 0)
          (c5ListW.offsets.getD (0 + c5ListW.offset + 1) 0)])
    ∧ materializeListEntry c5ListW 0
      = some (((c5ListW.elems.pairs.take (c5ListW.offsets.getD (0 + c5ListW.offset + 1) 0)).drop
          (c5ListW.offsets.getD (0 + c5ListW.offset) 0)).map
            (fun p => if p.2 then none else some p.1))
    ∧ (c5ListW.offsets.getD (0 + c5ListW.offset) 0
          = c5ListW.offsets.getD (0 + c5ListW.offset + 1) 0 →
        materializeListEntry c5ListW 0 = some []) :=
  (c5_list_scoping c5ListW 0 (by decide) (by decide) (by decide)).2 (by decide)

/-!
Recursive materializer, scalar encodings (`iterator/asjson.go` and
`dataframe/json.go, rowElementToJSON`).
-/

/-- One uppercase hexadecimal digit (`hex.EncodeToString` emits
lowercase digits; `strings.ToUpper` maps them to `0-9A-F`; modelled
directly as the uppercase digit). -/
def hexDigitUpper (n : Nat) : Char :=
  if n < 10 then Char.ofNat (48 + n) else Char.ofNat (55 + n)

/-- `strings.ToUpper(hex.EncodeToString([]byte{b}))` for one byte:
always exactly two uppercase hex characters. -/
def byteToHexUpper (b : Nat) : String :=
  String.mk [hexDigitUpper (b / 16 % 16), hexDigitUpper (b % 16)]

/-- `rowElementToJSON`, FIXED_SIZE_BINARY branch: the Go code asserts
`value.(byte)` — a single byte — hex-encodes it (2 characters,
upper-cased) and then requires the hex string length to equal
`2 * dt.ByteWidth`, returning a descriptive error on mismatch. -/
def rowElementToJSONFixedSizeBinary (byteWidth : Nat) (value : Nat) :
    Except String String :=
  let v := byteToHexUpper value
  if v.length ≠ 2 * byteWidth then
    Except.error ("dataframe/json: invalid hex-string length (got="
      ++ toString v.length ++ ", want=" ++ toString (2 * byteWidth) ++ ")")
  else
    Except.ok v

/-- C6 (code bug): the fixed-size-binary materializer hex-encodes only
a single byte, so its output always has length 2; for declared byte
width 2 it therefore errors on every non-null value instead of
producing the 4-character hex rendering the spec requires, while width
1 succeeds with a 2-character uppercase hex string. -/
theorem c6_fsb_single_byte_bug :
    rowElementToJSONFixedSizeBinary 2 0xAB
      = Except.error "dataframe/json: invalid hex-string length (got=2, want=4)"
    ∧ rowElementToJSONFixedSizeBinary 1 0xAB = Except.ok "AB"
    ∧ ∀ w : Nat, w ≠ 1 → ∀ b : Nat,
        ∃ e, rowElementToJSONFixedSizeBinary w b = Except.error e := by
  refine ⟨by rfl, by rfl, ?_⟩
  intro w hw b
  have hlen : (byteToHexUpper b).length = 2 := rfl
  rw [rowElementToJSONFixedSizeBinary]
  simp only [hlen]
  rw [if_pos (by omega)]
  exact ⟨_, rfl⟩

/-- `decimal128.Num` of the Arrow Go library, as the step iterator
hands it to the materializer: a 128-bit signed integer split into a low
unsigned 64-bit half (`LowBits`) and a high signed 64-bit half
(`HighBits`); the represented value is `hi * 2^64 + lo` (two's
complement). -/
structure Decimal128 where
  lo : Nat
  hi : Int
deriving DecidableEq, Repr

/-- `decimal128.Num.LowBits()`. -/
def Decimal128.LowBits (n : Decimal128) : Nat := n.lo

/-- `decimal128.Num.HighBits()`. -/
def Decimal128.HighBits (n : Decimal128) : Int := n.hi

/-- The 128-bit integer a `Decimal128` denotes. -/
def Decimal128.toInt (n : Decimal128) : Int := n.hi * 2 ^ 64 + n.lo

/-- `Signed128BitInteger` (`iterator/asjson.go` and
`dataframe/json.go`): the `{lo, hi}` JSON pair. -/
structure Signed128BitInteger where
  Lo : Nat
  Hi : Int
deriving DecidableEq, Repr

/-- `decimal128AsJSON` (also the DECIMAL case of `rowElementToJSON`):
copy the two halves, no floating-point involved. -/
def decimal128AsJSON (n : Decimal128) : Signed128BitInteger :=
  { Lo := n.LowBits, Hi := n.HighBits }

/-- C7: materializing a non-null 128-bit decimal produces the exact
`{lo: unsigned 64-bit, hi: signed 64-bit}` two's-complement halves:
the pair reproduces the value (`hi * 2^64 + lo`), the produced halves
are the unique such decomposition with `0 ≤ lo < 2^64`, and negative
values are recognizable exactly by the sign of the high half. -/
theorem c7_decimal128_halves (n : Decimal128) (h : n.lo < 2 ^ 64) :
    (decimal128AsJSON n).Lo = n.LowBits
    ∧ (decimal128AsJSON n).Hi = n.HighBits
    ∧ ((decimal128AsJSON n).Lo : Int) + (decimal128AsJSON n).Hi * 2 ^ 64 = n.toInt
    ∧ ((decimal128AsJSON n).Hi < 0 ↔ n.toInt < 0)
    ∧ ∀ (lo' : Nat) (hi' : Int), lo' < 2 ^ 64 →
        (lo' : Int) + hi' * 2 ^ 64 = n.toInt →
        lo' = (decimal128AsJSON n).Lo ∧ hi' = (decimal128AsJSON n).Hi := by
  have hp : (2 : Int) ^ 64 = 18446744073709551616 := by norm_num
  have hpn : (2 : Nat) ^ 64 = 18446744073709551616 := by norm_num
  have hlo : (n.lo : Int) < 18446744073709551616 := by
    have := h
    rw [hpn] at this
    exact_mod_cast this
  have hlo0 : (0 : Int) ≤ (n.lo : Int) := Int.natCast_nonneg _
  refine ⟨rfl, rfl, ?_, ?_, ?_⟩
  · simp only [decimal128AsJSON, Decimal128.toInt, Decimal128.LowBits, Decimal128.HighBits]
    ring
  · simp only [decimal128AsJSON, Decimal128.toInt, Decimal128.LowBits, Decimal128.HighBits]
    rw [hp]
    omega
  · intro lo' hi' hlt heq
    have hlo' : (lo' : Int) < 18446744073709551616 := by
      rw [hpn] at hlt
      exact_mod_cast hlt
    have hlo'0 : (0 : Int) ≤ (lo' : Int) := Int.natCast_nonneg _
    simp only [decimal128AsJSON, Decimal128.toInt, Decimal128.LowBits,
      Decimal128.HighBits] at heq ⊢
    rw [hp] at heq
    have heq2 : (lo' : Int) + hi' * 18446744073709551616
        = n.hi * 18446744073709551616 + n.lo := heq
    constructor
    · have : (lo' : Int) = (n.lo : Int) := by omega
      exact_mod_cast this
    · omega

theorem c7_decimal128_halves_witness :
    (decimal128AsJSON ⟨5, -1⟩).Lo = Decimal128.LowBits ⟨5, -1⟩
    ∧ (decimal128AsJSON ⟨5, -1⟩).Hi = Decimal128.HighBits ⟨5, -1⟩
    ∧ ((decimal128AsJSON ⟨5, -1⟩).Lo : Int)
        + (decimal128AsJSON ⟨5, -1⟩).Hi * 2 ^ 64 = Decimal128.toInt ⟨5, -1⟩
    ∧ ((decimal128AsJSON ⟨5, -1⟩).Hi < 0 ↔ Decimal128.toInt ⟨5, -1⟩ < 0)
    ∧ ∀ (lo' : Nat) (hi' : Int), lo' < 2 ^ 64 →
        (lo' : Int) + hi' * 2 ^ 64 = Decimal128.toInt ⟨5, -1⟩ →
        lo' = (decimal128AsJSON ⟨5, -1⟩).Lo ∧ hi' = (decimal128AsJSON ⟨5, -1⟩).Hi :=
  c7_decimal128_halves ⟨5, -1⟩ (by decide)
